import Mathlib

/-!
Verification development for the compose-status repository.

The subject is the reconciliation and staleness-tracking engine of the
status package: the method Controller.GetProjects that merges one poll
cycle's snapshot of running containers into the persistent unit mapping
keyed by the composite identity (project, name), plus the surrounding
controller construction (functional options), the JSON resume round trip,
and the fixed-capacity metric history buffers of the later variant.

Modelling conventions:
- Go time.Time / time.Duration values are Int nanoseconds.  The two
  time.Now() calls of one reconciliation pass (one shared by the upsert
  loop, one for the cleanup cutoff) become the explicit parameters
  tU and tC.
- The Go map map[string]*Container is an association list; Go maps keep
  keys unique, so theorems that need it take a Nodup hypothesis on keys.
  Iteration order of the cleanup loop does not matter because each entry
  is kept, marked, or deleted independently, so iterating in list order
  is faithful.
- Fallible code returns a result paired with an Option error, matching
  Go.  An early return with an error leaves the partially mutated map in
  place, exactly as the in-place mutation of c.LastProjects does.
-/

namespace Status

/-- Container mirrors the struct Container of the status package:
Name, Status, Link, LastSeen, IsDown, Project. -/
structure Container where
  name : String
  status : String
  link : String
  lastSeen : Int
  isDown : Bool
  project : String
deriving Repr, DecidableEq

/-- RawContainer mirrors the fields of docker.APIContainers that
Controller.GetProjects reads: ID, Names, Status, Labels. -/
structure RawContainer where
  id : String
  names : List String
  status : String
  labels : List (String × String)
deriving Repr, DecidableEq

/-- Container.ID from the source: project and name joined by a triple
underscore, the composite identity that is stable across container
recreation. -/
def Container.ID (c : Container) : String :=
  c.project ++ "___" ++ c.name

/-- Lookup in a Go labels map, modelled as association-list lookup. -/
def labelsLookup (labels : List (String × String)) (k : String) : Option String :=
  match labels with
  | [] => none
  | p :: rest => if p.1 = k then some p.2 else labelsLookup rest k

/-- The unit mapping c.LastProjects, a Go map from composite identity to
container record, modelled as an association list. -/
abbrev PMap := List (String × Container)

/-- Lookup of a key in the unit mapping. -/
def lookupPM (m : PMap) (k : String) : Option Container :=
  match m with
  | [] => none
  | p :: rest => if p.1 = k then some p.2 else lookupPM rest k

/-- Whether a key is present in the unit mapping. -/
def memKey (m : PMap) (k : String) : Bool :=
  match m with
  | [] => false
  | p :: rest => p.1 = k || memKey rest k

/-- Replace the value stored at an existing key. -/
def setKey (m : PMap) (k : String) (v : Container) : PMap :=
  match m with
  | [] => []
  | p :: rest => (if p.1 = k then (k, v) else p) :: setKey rest k v

/-- Go map assignment m[k] = v: replace in place when the key exists,
otherwise add a new entry. -/
def upsert (m : PMap) (k : String) (v : Container) : PMap :=
  if memKey m k then setKey m k v else m ++ [(k, v)]

/-- Keys of the unit mapping. -/
def keysOf (m : PMap) : List String := m.map (fun p => p.1)

/-- Delimiters closing the lazy capture group of the host regular
expression Host:(.+?)(?:,|;|$|\x08): comma, semicolon, or the backspace
character that the Go string literal \b denotes. -/
def isHostDelim (c : Char) : Prop :=
  c = ',' ∨ c = ';' ∨ c = Char.ofNat 8

instance (c : Char) : Decidable (isHostDelim c) := by
  unfold isHostDelim; infer_instance

/-- Lazy matching of the capture group (.+?) followed by a delimiter or
the end of the text: the shortest nonempty run of non-newline characters
whose next character is a delimiter, or which extends to the end. -/
def lazyGroup (acc : List Char) (cs : List Char) : Option (List Char) :=
  match cs with
  | [] => if acc.isEmpty then none else some acc.reverse
  | c :: rest =>
    if acc.isEmpty then
      if c = Char.ofNat 10 then none else lazyGroup [c] rest
    else if isHostDelim c then some acc.reverse
    else if c = Char.ofNat 10 then none
    else lazyGroup (c :: acc) rest

/-- Leftmost match of the host expression over the character list:
at the first position where the literal Host: is followed by a closable
lazy group, return that group. -/
def hostScan (cs : List Char) : Option String :=
  match cs with
  | [] => none
  | _ :: rest =>
    if cs.take 5 = [ 'H', 'o', 's', 't', ':' ] then
      match lazyGroup [] (cs.drop 5) with
      | some g => some (String.mk g)
      | none => hostScan rest
    else hostScan rest

/-- hostFromLabel from the source: the first capture group of the
regular expression Host:(.+?)(?:,|;|$|\x08) on the label, or the empty
string when there is no match. -/
def hostFromLabel (label : String) : String :=
  match hostScan label.toList with
  | some host => host
  | none => ""

/-- The fresh record built in the upsert loop of GetProjects for one
observed container: Names[0], the project label value, the lower-cased
status, LastSeen set to the loop's current time, the link taken from the
traefik.web.frontend.rule label and then overridden by the
traefik.frontend.rule label when present.  IsDown starts at its zero
value false. -/
def freshTain (tU : Int) (r : RawContainer) (project name : String) : Container :=
  let base : Container :=
    { name := name
      project := project
      status := r.status.toLower
      link := ""
      lastSeen := tU
      isDown := false }
  let withWeb :=
    match labelsLookup r.labels "traefik.web.frontend.rule" with
    | some label => { base with link := hostFromLabel label }
    | none => base
  match labelsLookup r.labels "traefik.frontend.rule" with
  | some label => { withWeb with link := hostFromLabel label }
  | none => withWeb

/-- The composite identity an observation contributes, if any: none when
the project label is missing (the container is skipped) or when the
names list is empty (the malformed case). -/
def obsKey (gl : String) (r : RawContainer) : Option String :=
  match labelsLookup r.labels gl with
  | none => none
  | some project =>
    match r.names with
    | [] => none
    | name :: _ => some (project ++ "___" ++ name)

/-- The fresh record an observation would upsert, if it is well formed. -/
def obsFresh (gl : String) (tU : Int) (r : RawContainer) : Option Container :=
  match labelsLookup r.labels gl with
  | none => none
  | some project =>
    match r.names with
    | [] => none
    | name :: _ => some (freshTain tU r project name)

/-- The upsert loop of GetProjects: walk the snapshot, skip containers
without the project label, fail on a container with an empty names list
(returning the mapping mutated so far), and otherwise record the
identity as seen and upsert the fresh record. -/
def upsertPhase (gl : String) (tU : Int) (obs : List RawContainer)
    (seen : List String) (m : PMap) : (List String × PMap) × Option String :=
  match obs with
  | [] => ((seen, m), none)
  | r :: rest =>
    match labelsLookup r.labels gl with
    | none => upsertPhase gl tU rest seen m
    | some project =>
      match r.names with
      | [] => ((seen, m), some ("\"" ++ r.id ++ "\" does not have a name"))
      | name :: _ =>
        let tain := freshTain tU r project name
        upsertPhase gl tU rest (seen ++ [tain.ID]) (upsert m tain.ID tain)

/-- The cleanup loop of GetProjects: delete every record whose LastSeen
is strictly before the cutoff, mark every surviving record that was not
seen this cycle as down, and keep the rest unchanged. -/
def cleanupPhase (seen : List String) (cutoff : Int) (m : PMap) : PMap :=
  match m with
  | [] => []
  | (k, c) :: rest =>
    if c.lastSeen < cutoff then cleanupPhase seen cutoff rest
    else if k ∈ seen then (k, c) :: cleanupPhase seen cutoff rest
    else (k, { c with isDown := true }) :: cleanupPhase seen cutoff rest

/-- Controller.GetProjects on an already-listed snapshot: run the upsert
loop and, if it did not fail, the cleanup loop with cutoff tC minus the
clean cutoff.  On failure the partially mutated mapping is returned with
the error, matching the in-place mutation of c.LastProjects. -/
def getProjects (gl : String) (cc : Int) (tU tC : Int)
    (obs : List RawContainer) (m : PMap) : PMap × Option String :=
  match upsertPhase gl tU obs [] m with
  | ((seen, m'), none) => (cleanupPhase seen (tC - cc) m', none)
  | ((_, m'), some e) => (m', some e)

/-- One reconciliation pass as scheduled by the polling loop: the
snapshot it received and the two time.Now() readings of the pass. -/
structure PassIn where
  tU : Int
  tC : Int
  obs : List RawContainer

/-- The polling loop of main: run GetProjects once per tick, keeping the
(possibly partially mutated) mapping whether or not the pass errored,
since errors are only logged. -/
def runPasses (gl : String) (cc : Int) (ps : List PassIn) (m : PMap) : PMap :=
  ps.foldl (fun acc p => (getProjects gl cc p.tU p.tC p.obs acc).1) m

/-- One nanosecond count of time.Second. -/
def nsPerSecond : Int := 1000000000

/-- Modelled from the spec: the byte level of the persisted resume state
is Go's encoding/json, which is library code not present in the
repository sources; the spec's contract is that the format round-trips
exactly.  The value level of that format: JSON strings, booleans, the
RFC 3339 text Go uses for a time.Time (lossless for the times at hand,
carried here as the timestamp itself), and objects. -/
inductive Json where
  | str (s : String)
  | bool (b : Bool)
  | time (t : Int)
  | obj (fields : List (String × Json))

/-- Modelled from the spec: json.Marshal of one Container record writes
its exported fields under their field names. -/
def marshalContainer (c : Container) : Json :=
  Json.obj
    [ ("Name", Json.str c.name)
    , ("Status", Json.str c.status)
    , ("Link", Json.str c.link)
    , ("LastSeen", Json.time c.lastSeen)
    , ("IsDown", Json.bool c.isDown)
    , ("Project", Json.str c.project) ]

/-- Modelled from the spec: json.Marshal of the unit mapping writes one
object member per entry.  Go sorts the keys in the byte output; member
order is immaterial to decoding an object into a map, so the entries are
kept in mapping order here. -/
def marshalPMap (m : PMap) : Json :=
  Json.obj (m.map (fun p => (p.1, marshalContainer p.2)))

/-- Find a member of a JSON object by exact field name. -/
def jsonField (fields : List (String × Json)) (k : String) : Option Json :=
  match fields with
  | [] => none
  | p :: rest => if p.1 = k then some p.2 else jsonField rest k

/-- Modelled from the spec: decoding a JSON value into a Go string
field.  A missing member leaves the zero value. -/
def jString (j : Option Json) : Option String :=
  match j with
  | none => some ""
  | some (Json.str s) => some s
  | some _ => none

/-- Modelled from the spec: decoding a JSON value into a Go bool field. -/
def jBool (j : Option Json) : Option Bool :=
  match j with
  | none => some false
  | some (Json.bool b) => some b
  | some _ => none

/-- Modelled from the spec: decoding a JSON value into a time.Time
field. -/
def jTime (j : Option Json) : Option Int :=
  match j with
  | none => some 0
  | some (Json.time t) => some t
  | some _ => none

/-- Modelled from the spec: json.Unmarshal of one object into a
Container record, field by field. -/
def unmarshalContainer (j : Json) : Option Container :=
  match j with
  | Json.obj fields =>
    match jString (jsonField fields "Name"),
          jString (jsonField fields "Status"),
          jString (jsonField fields "Link"),
          jTime (jsonField fields "LastSeen"),
          jBool (jsonField fields "IsDown"),
          jString (jsonField fields "Project") with
    | some name, some status, some link, some lastSeen, some isDown, some project =>
      some { name := name, status := status, link := link
             lastSeen := lastSeen, isDown := isDown, project := project }
    | _, _, _, _, _, _ => none
  | _ => none

/-- Modelled from the spec: json.Unmarshal of an object's members into
the unit mapping merges each decoded member into the map in turn. -/
def unmarshalFields (fields : List (String × Json)) (acc : PMap) : Option PMap :=
  match fields with
  | [] => some acc
  | p :: rest =>
    match unmarshalContainer p.2 with
    | some c => unmarshalFields rest (upsert acc p.1 c)
    | none => none

/-- Modelled from the spec: json.Unmarshal of an object into the unit
mapping merges each decoded member into the existing map, which is empty
at the point WithResume runs. -/
def unmarshalPMap (j : Json) (init : PMap) : Option PMap :=
  match j with
  | Json.obj fields => unmarshalFields fields init
  | _ => none

/-- The configuration and state fields of the struct Controller that the
reconciliation engine reads; the template, docker client and buffer pool
are external collaborators. -/
structure Controller where
  cleanCutoff : Int
  pageTitle : String
  groupLabel : String
  showCredit : Bool
  lastProjects : PMap

/-- WithCleanCutoff from the source. -/
def WithCleanCutoff (dur : Int) (c : Controller) : Option Controller :=
  some { c with cleanCutoff := dur }

/-- WithTitle from the source. -/
def WithTitle (title : String) (c : Controller) : Option Controller :=
  some { c with pageTitle := title }

/-- WithGroupLabel from the source. -/
def WithGroupLabel (label : String) (c : Controller) : Option Controller :=
  some { c with groupLabel := label }

/-- WithCredit from the source. -/
def WithCredit (c : Controller) : Option Controller :=
  some { c with showCredit := true }

/-- WithResume from the source: an empty save file is a no-op, otherwise
the file is unmarshalled into c.LastProjects.  The bytes are carried at
the JSON value level; none stands for the empty file. -/
def WithResume (file : Option Json) (c : Controller) : Option Controller :=
  match file with
  | none => some c
  | some j =>
    match unmarshalPMap j c.lastProjects with
    | some m => some { c with lastProjects := m }
    | none => none

/-- NewController from the source, restricted to the modelled fields:
start from the defaults (an empty mapping, a clean cutoff of three days,
the compose project label as group label) and run the option list in
order, stopping at the first failing option. -/
def newController (options : List (Controller → Option Controller)) : Option Controller :=
  options.foldlM (fun c opt => opt c)
    { cleanCutoff := 3 * 24 * 3600 * nsPerSecond
      pageTitle := "server status"
      groupLabel := "com.docker.compose.project"
      showCredit := false
      lastProjects := [] }

end Status

namespace HistStatus

/-- The metric history buffer type hist of the later variant, a slice of
float64 samples.  The buffer only stores and shifts its samples, so they
are carried as Int here. -/
abbrev hist := List Int

/-- hist.add from the source: append the new sample, then reslice from
index one, dropping the oldest sample and preserving the length. -/
def histAdd (h : hist) (n : Int) : hist :=
  (h ++ [n]).drop 1

/-- The configuration fields of the later variant's Controller that
WithScanInternal and WithHistWindow touch. -/
structure Controller where
  scanInterval : Int
  histCPU : hist
  histTemp : hist
  pageTitle : String
  showCredit : Bool
deriving Repr, DecidableEq

/-- The ways an option of the later variant can fail: a runtime panic
from dividing a duration by a zero scan interval, a runtime panic from
make with a negative length, or an ordinary returned error. -/
inductive OptFault where
  | divByZero
  | negMakeSlice
  | errMsg (s : String)
deriving Repr, DecidableEq

/-- WithScanInternal from the source. -/
def WithScanInternal (dur : Int) (c : Controller) : Except OptFault Controller :=
  Except.ok { c with scanInterval := dur }

/-- WithTitle from the source. -/
def WithTitle (title : String) (c : Controller) : Except OptFault Controller :=
  Except.ok { c with pageTitle := title }

/-- WithCredit from the source. -/
def WithCredit (c : Controller) : Except OptFault Controller :=
  Except.ok { c with showCredit := true }

/-- WithHistWindow from the source: allocate both history buffers with
make, sized by the integer division of the window by the current scan
interval.  Go duration division is integer division truncating toward
zero; dividing by a zero scan interval panics, as does make on a
negative length. -/
def WithHistWindow (dur : Int) (c : Controller) : Except OptFault Controller :=
  if c.scanInterval = 0 then Except.error OptFault.divByZero
  else
    let n := dur.tdiv c.scanInterval
    if n < 0 then Except.error OptFault.negMakeSlice
    else Except.ok { c with histCPU := List.replicate n.toNat 0
                            histTemp := List.replicate n.toNat 0 }

/-- NewController of the later variant, restricted to the modelled
fields: the struct literal leaves scanInterval and the buffers at their
zero values, then the options run in order. -/
def newController (options : List (Controller → Except OptFault Controller)) :
    Except OptFault Controller :=
  options.foldlM (fun c opt => opt c)
    { scanInterval := 0
      histCPU := []
      histTemp := []
      pageTitle := ""
      showCredit := false }

end HistStatus

namespace Status

theorem keysOf_nil : keysOf [] = [] := rfl

theorem keysOf_cons (p : String × Container) (rest : PMap) :
    keysOf (p :: rest) = p.1 :: keysOf rest := rfl

theorem memKey_iff (m : PMap) (k : String) : memKey m k = true ↔ k ∈ keysOf m := by
  induction m with
  | nil => simp [memKey, keysOf_nil]
  | cons p rest ih =>
    rw [keysOf_cons]
    simp [memKey, ih, List.mem_cons]
    constructor
    · rintro (h | h)
      · exact Or.inl h.symm
      · exact Or.inr h
    · rintro (h | h)
      · exact Or.inl h.symm
      · exact Or.inr h

theorem lookupPM_eq_none_iff (m : PMap) (k : String) :
    lookupPM m k = none ↔ k ∉ keysOf m := by
  induction m with
  | nil => simp [lookupPM, keysOf_nil]
  | cons p rest ih =>
    rw [keysOf_cons]
    by_cases h : p.1 = k
    · simp [lookupPM, h, List.mem_cons]
    · have hmem : ¬ k = p.1 := fun he => h he.symm
      simp [lookupPM, h, ih, List.mem_cons, hmem]

theorem lookupPM_append_left (m l : PMap) (k : String) (h : k ∉ keysOf m) :
    lookupPM (m ++ l) k = lookupPM l k := by
  induction m with
  | nil => simp
  | cons p rest ih =>
    rw [keysOf_cons] at h
    simp [List.mem_cons] at h
    push_neg at h
    have h1 : ¬ p.1 = k := fun he => h.1 he.symm
    rw [List.cons_append]
    show (if p.1 = k then some p.2 else lookupPM (rest ++ l) k) = lookupPM l k
    rw [if_neg h1]
    exact ih h.2

theorem lookupPM_setKey_self (m : PMap) (k : String) (v : Container)
    (h : k ∈ keysOf m) : lookupPM (setKey m k v) k = some v := by
  induction m with
  | nil => simp [keysOf_nil] at h
  | cons p rest ih =>
    by_cases hp : p.1 = k
    · simp [setKey, hp, lookupPM]
    · rw [keysOf_cons] at h
      simp [List.mem_cons] at h
      rcases h with h | h
      · exact absurd h.symm hp
      · simp [setKey, hp, lookupPM, ih h]

theorem lookupPM_setKey_ne (m : PMap) (k : String) (v : Container) (k2 : String)
    (h : k2 ≠ k) : lookupPM (setKey m k v) k2 = lookupPM m k2 := by
  induction m with
  | nil => simp [setKey]
  | cons p rest ih =>
    by_cases hp : p.1 = k
    · have : ¬ k = k2 := fun he => h he.symm
      simp [setKey, hp, lookupPM, this, ih]
    · simp [setKey, hp, lookupPM, ih]

theorem lookupPM_upsert_self (m : PMap) (k : String) (v : Container) :
    lookupPM (upsert m k v) k = some v := by
  unfold upsert
  by_cases h : memKey m k = true
  · simp [h, lookupPM_setKey_self m k v ((memKey_iff m k).mp h)]
  · have hk : k ∉ keysOf m := fun hm => h ((memKey_iff m k).mpr hm)
    simp [h, lookupPM_append_left m _ k hk, lookupPM]

theorem lookupPM_upsert_ne (m : PMap) (k : String) (v : Container) (k2 : String)
    (h : k2 ≠ k) : lookupPM (upsert m k v) k2 = lookupPM m k2 := by
  unfold upsert
  by_cases hm : memKey m k = true
  · simp [hm, lookupPM_setKey_ne m k v k2 h]
  · rw [if_neg hm]
    induction m with
    | nil =>
      have hne : ¬ k = k2 := fun he => h he.symm
      simp [lookupPM, hne]
    | cons p rest ih =>
      rw [List.cons_append]
      show (if p.1 = k2 then some p.2 else lookupPM (rest ++ [(k, v)]) k2) =
        (if p.1 = k2 then some p.2 else lookupPM rest k2)
      by_cases hp : p.1 = k2
      · simp [hp]
      · rw [if_neg hp, if_neg hp]
        exact ih (by simp [memKey] at hm ⊢; exact hm.2)

theorem keysOf_setKey (m : PMap) (k : String) (v : Container) :
    keysOf (setKey m k v) = keysOf m := by
  induction m with
  | nil => rfl
  | cons p rest ih =>
    by_cases hp : p.1 = k
    · simp [setKey, hp, keysOf_cons, ih]
    · simp [setKey, hp, keysOf_cons, ih]

theorem keysOf_append (m l : PMap) : keysOf (m ++ l) = keysOf m ++ keysOf l := by
  simp [keysOf]

theorem keysOf_upsert (m : PMap) (k : String) (v : Container) :
    keysOf (upsert m k v) = if memKey m k then keysOf m else keysOf m ++ [k] := by
  unfold upsert
  by_cases h : memKey m k = true
  · simp [h, keysOf_setKey]
  · simp [h, keysOf_append, keysOf]

theorem length_setKey (m : PMap) (k : String) (v : Container) :
    (setKey m k v).length = m.length := by
  induction m with
  | nil => rfl
  | cons p rest ih => simp [setKey, ih]

theorem nodup_keys_upsert (m : PMap) (k : String) (v : Container)
    (h : (keysOf m).Nodup) : (keysOf (upsert m k v)).Nodup := by
  rw [keysOf_upsert]
  by_cases hm : memKey m k = true
  · simpa [hm]
  · have hk : k ∉ keysOf m := fun hmem => hm ((memKey_iff m k).mpr hmem)
    simp [hm, List.nodup_append, h, hk]

theorem mem_setKey_elim (m : PMap) (k : String) (v : Container) (p : String × Container)
    (h : p ∈ setKey m k v) : p = (k, v) ∨ p ∈ m := by
  induction m with
  | nil => simp [setKey] at h
  | cons q rest ih =>
    simp only [setKey, List.mem_cons] at h
    rcases h with h | h
    · by_cases hq : q.1 = k
      · rw [if_pos hq] at h; exact Or.inl h
      · rw [if_neg hq] at h; exact Or.inr (by simp [h])
    · rcases ih h with h1 | h1
      · exact Or.inl h1
      · exact Or.inr (by simp [h1])

theorem mem_upsert_elim (m : PMap) (k : String) (v : Container) (p : String × Container)
    (h : p ∈ upsert m k v) : p = (k, v) ∨ p ∈ m := by
  unfold upsert at h
  by_cases hm : memKey m k = true
  · rw [if_pos hm] at h
    exact mem_setKey_elim m k v p h
  · rw [if_neg hm] at h
    rcases List.mem_append.mp h with h | h
    · exact Or.inr h
    · exact Or.inl (by simpa using h)

end Status

namespace Status

theorem freshTain_fields (tU : Int) (r : RawContainer) (project name : String) :
    (freshTain tU r project name).name = name ∧
    (freshTain tU r project name).project = project ∧
    (freshTain tU r project name).status = r.status.toLower ∧
    (freshTain tU r project name).lastSeen = tU ∧
    (freshTain tU r project name).isDown = false := by
  unfold freshTain
  cases labelsLookup r.labels "traefik.web.frontend.rule" <;>
    cases labelsLookup r.labels "traefik.frontend.rule" <;>
      exact ⟨rfl, rfl, rfl, rfl, rfl⟩

theorem freshTain_ID (tU : Int) (r : RawContainer) (project name : String) :
    (freshTain tU r project name).ID = project ++ "___" ++ name := by
  unfold Container.ID freshTain
  cases labelsLookup r.labels "traefik.web.frontend.rule" <;>
    cases labelsLookup r.labels "traefik.frontend.rule" <;> rfl

theorem keysOf_cleanupPhase_sublist (seen : List String) (cutoff : Int) (m : PMap) :
    (keysOf (cleanupPhase seen cutoff m)).Sublist (keysOf m) := by
  induction m with
  | nil => simp [cleanupPhase, keysOf_nil]
  | cons p rest ih =>
    rcases p with ⟨k, c⟩
    rw [keysOf_cons]
    show (keysOf
      (if c.lastSeen < cutoff then cleanupPhase seen cutoff rest
       else if k ∈ seen then (k, c) :: cleanupPhase seen cutoff rest
       else (k, { c with isDown := true }) :: cleanupPhase seen cutoff rest)).Sublist
      (k :: keysOf rest)
    by_cases h1 : c.lastSeen < cutoff
    · rw [if_pos h1]
      exact ih.trans (List.sublist_cons_self _ _)
    · rw [if_neg h1]
      by_cases h2 : k ∈ seen
      · rw [if_pos h2, keysOf_cons]
        exact ih.cons₂ k
      · rw [if_neg h2, keysOf_cons]
        exact ih.cons₂ k

theorem lookupPM_cleanupPhase_kept (seen : List String) (cutoff : Int) (m : PMap)
    (k : String) (c : Container) (h : lookupPM m k = some c)
    (hcut : ¬ c.lastSeen < cutoff) :
    lookupPM (cleanupPhase seen cutoff m) k =
      some (if k ∈ seen then c else { c with isDown := true }) := by
  induction m with
  | nil => simp [lookupPM] at h
  | cons p rest ih =>
    rcases p with ⟨k1, c1⟩
    by_cases hk : k1 = k
    · subst hk
      rw [show lookupPM ((k1, c1) :: rest) k1 = some c1 by simp [lookupPM]] at h
      injection h with h
      subst h
      show lookupPM
        (if c1.lastSeen < cutoff then cleanupPhase seen cutoff rest
         else if k1 ∈ seen then (k1, c1) :: cleanupPhase seen cutoff rest
         else (k1, { c1 with isDown := true }) :: cleanupPhase seen cutoff rest) k1 = _
      rw [if_neg hcut]
      by_cases h2 : k1 ∈ seen
      · rw [if_pos h2, if_pos h2]; simp [lookupPM]
      · rw [if_neg h2, if_neg h2]; simp [lookupPM]
    · rw [show lookupPM ((k1, c1) :: rest) k = lookupPM rest k by simp [lookupPM, hk]] at h
      show lookupPM
        (if c1.lastSeen < cutoff then cleanupPhase seen cutoff rest
         else if k1 ∈ seen then (k1, c1) :: cleanupPhase seen cutoff rest
         else (k1, { c1 with isDown := true }) :: cleanupPhase seen cutoff rest) k = _
      by_cases h1 : c1.lastSeen < cutoff
      · rw [if_pos h1]; exact ih h
      · rw [if_neg h1]
        by_cases h2 : k1 ∈ seen
        · rw [if_pos h2]; simpa [lookupPM, hk] using ih h
        · rw [if_neg h2]; simpa [lookupPM, hk] using ih h

theorem lookupPM_cleanupPhase_none (seen : List String) (cutoff : Int) (m : PMap)
    (k : String) (h : lookupPM m k = none) :
    lookupPM (cleanupPhase seen cutoff m) k = none := by
  rw [lookupPM_eq_none_iff] at h ⊢
  exact fun hmem => h ((keysOf_cleanupPhase_sublist seen cutoff m).subset hmem)

theorem lookupPM_cleanupPhase_deleted (seen : List String) (cutoff : Int) (m : PMap)
    (k : String) (c : Container) (hnd : (keysOf m).Nodup)
    (h : lookupPM m k = some c) (hcut : c.lastSeen < cutoff) :
    lookupPM (cleanupPhase seen cutoff m) k = none := by
  induction m with
  | nil => simp [lookupPM] at h
  | cons p rest ih =>
    rcases p with ⟨k1, c1⟩
    rw [keysOf_cons, List.nodup_cons] at hnd
    by_cases hk : k1 = k
    · subst hk
      rw [show lookupPM ((k1, c1) :: rest) k1 = some c1 by simp [lookupPM]] at h
      injection h with h
      subst h
      show lookupPM
        (if c1.lastSeen < cutoff then cleanupPhase seen cutoff rest
         else if k1 ∈ seen then (k1, c1) :: cleanupPhase seen cutoff rest
         else (k1, { c1 with isDown := true }) :: cleanupPhase seen cutoff rest) k1 = none
      rw [if_pos hcut]
      exact lookupPM_cleanupPhase_none seen cutoff rest k1
        ((lookupPM_eq_none_iff rest k1).mpr hnd.1)
    · rw [show lookupPM ((k1, c1) :: rest) k = lookupPM rest k by simp [lookupPM, hk]] at h
      show lookupPM
        (if c1.lastSeen < cutoff then cleanupPhase seen cutoff rest
         else if k1 ∈ seen then (k1, c1) :: cleanupPhase seen cutoff rest
         else (k1, { c1 with isDown := true }) :: cleanupPhase seen cutoff rest) k = none
      by_cases h1 : c1.lastSeen < cutoff
      · rw [if_pos h1]; exact ih hnd.2 h
      · rw [if_neg h1]
        by_cases h2 : k1 ∈ seen
        · rw [if_pos h2]; simpa [lookupPM, hk] using ih hnd.2 h
        · rw [if_neg h2]; simpa [lookupPM, hk] using ih hnd.2 h

theorem cleanupPhase_all_deleted (seen : List String) (cutoff : Int) (m : PMap)
    (h : ∀ p ∈ m, p.2.lastSeen < cutoff) : cleanupPhase seen cutoff m = [] := by
  induction m with
  | nil => rfl
  | cons p rest ih =>
    rcases p with ⟨k, c⟩
    show (if c.lastSeen < cutoff then cleanupPhase seen cutoff rest
       else if k ∈ seen then (k, c) :: cleanupPhase seen cutoff rest
       else (k, { c with isDown := true }) :: cleanupPhase seen cutoff rest) = []
    rw [if_pos (h (k, c) (List.mem_cons_self _ _))]
    exact ih (fun p hp => h p (List.mem_cons_of_mem _ hp))

end Status

namespace Status

theorem upsertPhase_cons_skip (gl : String) (tU : Int) (r : RawContainer)
    (rest : List RawContainer) (seen : List String) (m : PMap)
    (hl : labelsLookup r.labels gl = none) :
    upsertPhase gl tU (r :: rest) seen m = upsertPhase gl tU rest seen m := by
  simp only [upsertPhase, hl]

theorem upsertPhase_cons_malformed (gl : String) (tU : Int) (r : RawContainer)
    (rest : List RawContainer) (seen : List String) (m : PMap) (project : String)
    (hl : labelsLookup r.labels gl = some project) (hn : r.names = []) :
    upsertPhase gl tU (r :: rest) seen m =
      ((seen, m), some ("\"" ++ r.id ++ "\" does not have a name")) := by
  simp only [upsertPhase, hl, hn]

theorem upsertPhase_cons_upsert (gl : String) (tU : Int) (r : RawContainer)
    (rest : List RawContainer) (seen : List String) (m : PMap)
    (project name : String) (tl : List String)
    (hl : labelsLookup r.labels gl = some project) (hn : r.names = name :: tl) :
    upsertPhase gl tU (r :: rest) seen m =
      upsertPhase gl tU rest (seen ++ [(freshTain tU r project name).ID])
        (upsert m (freshTain tU r project name).ID (freshTain tU r project name)) := by
  simp only [upsertPhase, hl, hn]

theorem upsertPhase_absent (gl : String) (tU : Int) (obs : List RawContainer) :
    ∀ (seen : List String) (m : PMap) (k : String),
      (∀ r ∈ obs, obsKey gl r ≠ some k) →
      lookupPM (upsertPhase gl tU obs seen m).1.2 k = lookupPM m k ∧
      (k ∈ (upsertPhase gl tU obs seen m).1.1 ↔ k ∈ seen) := by
  induction obs with
  | nil => intro seen m k _; exact ⟨rfl, Iff.rfl⟩
  | cons r rest ih =>
    intro seen m k h
    rcases hl : labelsLookup r.labels gl with _ | project
    · rw [upsertPhase_cons_skip gl tU r rest seen m hl]
      exact ih seen m k (fun r' hr' => h r' (List.mem_cons_of_mem _ hr'))
    · rcases hn : r.names with _ | ⟨name, tl⟩
      · rw [upsertPhase_cons_malformed gl tU r rest seen m project hl hn]
        exact ⟨rfl, Iff.rfl⟩
      · have hkid : (freshTain tU r project name).ID = project ++ "___" ++ name :=
          freshTain_ID tU r project name
        have hobs : obsKey gl r = some (project ++ "___" ++ name) := by
          simp [obsKey, hl, hn]
        have hne : project ++ "___" ++ name ≠ k := by
          intro he
          exact h r (List.mem_cons_self _ _) (by rw [hobs, he])
        rw [upsertPhase_cons_upsert gl tU r rest seen m project name tl hl hn]
        have := ih (seen ++ [(freshTain tU r project name).ID])
          (upsert m (freshTain tU r project name).ID (freshTain tU r project name)) k
          (fun r' hr' => h r' (List.mem_cons_of_mem _ hr'))
        rcases this with ⟨h1, h2⟩
        constructor
        · rw [h1, lookupPM_upsert_ne _ _ _ _ (by rw [hkid]; exact fun he => hne he.symm)]
        · rw [h2, List.mem_append, hkid]
          have hne2 : ¬ k = project ++ "___" ++ name := fun he => hne he.symm
          simp [hne2]
    
theorem upsertPhase_last (gl : String) (tU : Int) (pre : List RawContainer) :
    ∀ (r : RawContainer) (post : List RawContainer) (seen : List String) (m : PMap)
      (k : String),
      obsKey gl r = some k →
      (∀ r' ∈ post, obsKey gl r' ≠ some k) →
      (upsertPhase gl tU (pre ++ r :: post) seen m).2 = none →
      lookupPM (upsertPhase gl tU (pre ++ r :: post) seen m).1.2 k = obsFresh gl tU r ∧
      k ∈ (upsertPhase gl tU (pre ++ r :: post) seen m).1.1 := by
  induction pre with
  | nil =>
    intro r post seen m k hk hpost _
    rcases hl : labelsLookup r.labels gl with _ | project
    · simp [obsKey, hl] at hk
    · rcases hn : r.names with _ | ⟨name, tl⟩
      · simp [obsKey, hl, hn] at hk
      · have hkid : (freshTain tU r project name).ID = project ++ "___" ++ name :=
          freshTain_ID tU r project name
        have hkk : k = project ++ "___" ++ name := by
          simp [obsKey, hl, hn] at hk
          exact hk.symm
        rw [List.nil_append, upsertPhase_cons_upsert gl tU r post seen m project name tl hl hn]
        rcases upsertPhase_absent gl tU post
          (seen ++ [(freshTain tU r project name).ID])
          (upsert m (freshTain tU r project name).ID (freshTain tU r project name)) k
          hpost with ⟨h1, h2⟩
        constructor
        · rw [h1, show k = (freshTain tU r project name).ID by rw [hkid]; exact hkk,
            lookupPM_upsert_self]
          simp [obsFresh, hl, hn]
        · rw [h2, List.mem_append, hkid]
          exact Or.inr (by simp [hkk])
  | cons q pre' ih =>
    intro r post seen m k hk hpost hsucc
    rcases hl : labelsLookup q.labels gl with _ | project
    · rw [List.cons_append, upsertPhase_cons_skip gl tU q _ seen m hl] at hsucc ⊢
      exact ih r post seen m k hk hpost hsucc
    · rcases hn : q.names with _ | ⟨name, tl⟩
      · rw [List.cons_append,
          upsertPhase_cons_malformed gl tU q _ seen m project hl hn] at hsucc
        simp at hsucc
      · rw [List.cons_append,
          upsertPhase_cons_upsert gl tU q _ seen m project name tl hl hn] at hsucc ⊢
        exact ih r post _ _ k hk hpost hsucc

theorem upsertPhase_keys_subset (gl : String) (tU : Int) (obs : List RawContainer) :
    ∀ (seen : List String) (m : PMap) (k : String),
      k ∈ keysOf (upsertPhase gl tU obs seen m).1.2 →
      k ∈ keysOf m ∨ ∃ r ∈ obs, obsKey gl r = some k := by
  induction obs with
  | nil => intro seen m k h; exact Or.inl h
  | cons r rest ih =>
    intro seen m k h
    rcases hl : labelsLookup r.labels gl with _ | project
    · rw [upsertPhase_cons_skip gl tU r rest seen m hl] at h
      rcases ih seen m k h with h1 | ⟨r', hr', hk'⟩
      · exact Or.inl h1
      · exact Or.inr ⟨r', List.mem_cons_of_mem _ hr', hk'⟩
    · rcases hn : r.names with _ | ⟨name, tl⟩
      · rw [upsertPhase_cons_malformed gl tU r rest seen m project hl hn] at h
        exact Or.inl h
      · rw [upsertPhase_cons_upsert gl tU r rest seen m project name tl hl hn] at h
        rcases ih _ _ k h with h1 | ⟨r', hr', hk'⟩
        · rw [keysOf_upsert] at h1
          by_cases hm : memKey m (freshTain tU r project name).ID = true
          · rw [if_pos hm] at h1; exact Or.inl h1
          · rw [if_neg hm, List.mem_append] at h1
            rcases h1 with h1 | h1
            · exact Or.inl h1
            · refine Or.inr ⟨r, List.mem_cons_self _ _, ?_⟩
              simp at h1
              rw [h1, freshTain_ID]
              simp [obsKey, hl, hn]
        · exact Or.inr ⟨r', List.mem_cons_of_mem _ hr', hk'⟩

theorem upsertPhase_nodup (gl : String) (tU : Int) (obs : List RawContainer) :
    ∀ (seen : List String) (m : PMap), (keysOf m).Nodup →
      (keysOf (upsertPhase gl tU obs seen m).1.2).Nodup := by
  induction obs with
  | nil => intro seen m h; exact h
  | cons r rest ih =>
    intro seen m h
    rcases hl : labelsLookup r.labels gl with _ | project
    · rw [upsertPhase_cons_skip gl tU r rest seen m hl]
      exact ih seen m h
    · rcases hn : r.names with _ | ⟨name, tl⟩
      · rw [upsertPhase_cons_malformed gl tU r rest seen m project hl hn]
        exact h
      · rw [upsertPhase_cons_upsert gl tU r rest seen m project name tl hl hn]
        exact ih _ _ (nodup_keys_upsert _ _ _ h)

theorem upsertPhase_entries (gl : String) (tU : Int) (obs : List RawContainer) :
    ∀ (seen : List String) (m : PMap) (p : String × Container),
      p ∈ (upsertPhase gl tU obs seen m).1.2 → p.2.lastSeen = tU ∨ p ∈ m := by
  induction obs with
  | nil => intro seen m p h; exact Or.inr h
  | cons r rest ih =>
    intro seen m p h
    rcases hl : labelsLookup r.labels gl with _ | project
    · rw [upsertPhase_cons_skip gl tU r rest seen m hl] at h
      exact ih seen m p h
    · rcases hn : r.names with _ | ⟨name, tl⟩
      · rw [upsertPhase_cons_malformed gl tU r rest seen m project hl hn] at h
        exact Or.inr h
      · rw [upsertPhase_cons_upsert gl tU r rest seen m project name tl hl hn] at h
        rcases ih _ _ p h with h1 | h1
        · exact Or.inl h1
        · rcases mem_upsert_elim _ _ _ p h1 with h2 | h2
          · rw [h2]
            exact Or.inl (freshTain_fields tU r project name).2.2.2.1
          · exact Or.inr h2

theorem upsertPhase_append_error (gl : String) (tU : Int) (pre : List RawContainer) :
    ∀ (mal : RawContainer) (rest : List RawContainer) (seen : List String) (m : PMap)
      (project : String),
      (upsertPhase gl tU pre seen m).2 = none →
      labelsLookup mal.labels gl = some project →
      mal.names = [] →
      upsertPhase gl tU (pre ++ mal :: rest) seen m =
        ((upsertPhase gl tU pre seen m).1,
          some ("\"" ++ mal.id ++ "\" does not have a name")) := by
  induction pre with
  | nil =>
    intro mal rest seen m project _ hl hn
    rw [List.nil_append, upsertPhase_cons_malformed gl tU mal rest seen m project hl hn]
    rfl
  | cons q pre' ih =>
    intro mal rest seen m project hsucc hl hn
    rcases hql : labelsLookup q.labels gl with _ | qproject
    · rw [upsertPhase_cons_skip gl tU q _ seen m hql] at hsucc
      rw [List.cons_append, upsertPhase_cons_skip gl tU q _ seen m hql,
        upsertPhase_cons_skip gl tU q _ seen m hql]
      exact ih mal rest seen m project hsucc hl hn
    · rcases hqn : q.names with _ | ⟨name, tl⟩
      · rw [upsertPhase_cons_malformed gl tU q _ seen m qproject hql hqn] at hsucc
        simp at hsucc
      · rw [upsertPhase_cons_upsert gl tU q _ seen m qproject name tl hql hqn] at hsucc
        rw [List.cons_append,
          upsertPhase_cons_upsert gl tU q _ seen m qproject name tl hql hqn,
          upsertPhase_cons_upsert gl tU q pre' seen m qproject name tl hql hqn]
        exact ih mal rest _ _ project hsucc hl hn

theorem upsertPhase_remove_skipped (gl : String) (tU : Int) (pre : List RawContainer) :
    ∀ (r : RawContainer) (post : List RawContainer) (seen : List String) (m : PMap),
      labelsLookup r.labels gl = none →
      upsertPhase gl tU (pre ++ r :: post) seen m = upsertPhase gl tU (pre ++ post) seen m := by
  induction pre with
  | nil =>
    intro r post seen m hl
    rw [List.nil_append, List.nil_append, upsertPhase_cons_skip gl tU r post seen m hl]
  | cons q pre' ih =>
    intro r post seen m hl
    rcases hql : labelsLookup q.labels gl with _ | qproject
    · rw [List.cons_append, List.cons_append, upsertPhase_cons_skip gl tU q _ seen m hql,
        upsertPhase_cons_skip gl tU q _ seen m hql]
      exact ih r post seen m hl
    · rcases hqn : q.names with _ | ⟨name, tl⟩
      · rw [List.cons_append, List.cons_append,
          upsertPhase_cons_malformed gl tU q _ seen m qproject hql hqn,
          upsertPhase_cons_malformed gl tU q _ seen m qproject hql hqn]
      · rw [List.cons_append, List.cons_append,
          upsertPhase_cons_upsert gl tU q _ seen m qproject name tl hql hqn,
          upsertPhase_cons_upsert gl tU q _ seen m qproject name tl hql hqn]
        exact ih r post _ _ hl

end Status

namespace Status

theorem getProjects_keys_subset (gl : String) (cc tU tC : Int)
    (obs : List RawContainer) (m : PMap) (k : String)
    (hk : k ∈ keysOf (getProjects gl cc tU tC obs m).1) :
    k ∈ keysOf m ∨ ∃ r ∈ obs, obsKey gl r = some k := by
  unfold getProjects at hk
  rcases hup : upsertPhase gl tU obs [] m with ⟨⟨seen, m'⟩, err⟩
  have hm' : (upsertPhase gl tU obs [] m).1.2 = m' := by rw [hup]
  rw [hup] at hk
  cases err with
  | none =>
    have hsub := (keysOf_cleanupPhase_sublist seen (tC - cc) m').subset
    exact upsertPhase_keys_subset gl tU obs [] m k (by rw [hm']; exact hsub hk)
  | some e =>
    exact upsertPhase_keys_subset gl tU obs [] m k (by rw [hm']; exact hk)

theorem getProjects_nodup (gl : String) (cc tU tC : Int)
    (obs : List RawContainer) (m : PMap) (h : (keysOf m).Nodup) :
    (keysOf (getProjects gl cc tU tC obs m).1).Nodup := by
  unfold getProjects
  rcases hup : upsertPhase gl tU obs [] m with ⟨⟨seen, m'⟩, err⟩
  have hm' : (keysOf m').Nodup := by
    have := upsertPhase_nodup gl tU obs [] m h
    rw [hup] at this
    exact this
  cases err with
  | none => exact (keysOf_cleanupPhase_sublist seen (tC - cc) m').nodup hm'
  | some e => exact hm'

theorem runPasses_cons (gl : String) (cc : Int) (p : PassIn) (ps : List PassIn)
    (m : PMap) :
    runPasses gl cc (p :: ps) m = runPasses gl cc ps ((getProjects gl cc p.tU p.tC p.obs m).1) :=
  rfl

end Status

open Status

/-- C2: a tracked unit whose identity is absent from the current cycle's
snapshot and whose lastSeen is still within the clean cutoff is marked
down by the reconciliation pass, with its Name, Status, Link and
LastSeen fields unchanged from the previous cycle. -/
theorem C2_down_transition (gl : String) (cc tU tC : Int) (obs : List RawContainer)
    (m : PMap) (id : String) (c0 : Container)
    (htrack : lookupPM m id = some c0)
    (habsent : ∀ r ∈ obs, obsKey gl r ≠ some id)
    (hsucc : (getProjects gl cc tU tC obs m).2 = none)
    (hfresh : ¬ c0.lastSeen < tC - cc) :
    lookupPM (getProjects gl cc tU tC obs m).1 id = some { c0 with isDown := true } := by
  rcases hup : upsertPhase gl tU obs [] m with ⟨⟨seen, m'⟩, err⟩
  have habs := upsertPhase_absent gl tU obs [] m id habsent
  rw [hup] at habs
  unfold getProjects at hsucc ⊢
  rw [hup] at hsucc ⊢
  cases err with
  | some e => simp at hsucc
  | none =>
    have hlook : lookupPM m' id = some c0 := by rw [habs.1, htrack]
    have hseen : id ∉ seen := by
      intro hmem
      exact (List.not_mem_nil id) (habs.2.mp hmem)
    rw [lookupPM_cleanupPhase_kept seen (tC - cc) m' id c0 hlook hfresh, if_neg hseen]

/-- C2 witness: one tracked unit, an empty snapshot, a cutoff that has
not yet elapsed: the pass marks the unit down and preserves its fields. -/
theorem C2_down_transition_witness :
    lookupPM
      (getProjects "com.docker.compose.project" 100 50 50 []
        [("p___/a",
          { name := "/a", status := "up 2 days", link := "", lastSeen := 0,
            isDown := false, project := "p" })]).1 "p___/a" =
      some { name := "/a", status := "up 2 days", link := "", lastSeen := 0,
             isDown := true, project := "p" } :=
  C2_down_transition "com.docker.compose.project" 100 50 50 [] _ "p___/a"
    { name := "/a", status := "up 2 days", link := "", lastSeen := 0,
      isDown := false, project := "p" }
    (by rfl) (by simp) (by rfl) (by decide)

/-- C3: a tracked unit absent from the current snapshot is deleted by
the reconciliation pass exactly when now minus lastSeen strictly exceeds
the clean cutoff. -/
theorem C3_eviction_strict (gl : String) (cc tU tC : Int) (obs : List RawContainer)
    (m : PMap) (id : String) (c0 : Container)
    (hnd : (keysOf m).Nodup)
    (htrack : lookupPM m id = some c0)
    (habsent : ∀ r ∈ obs, obsKey gl r ≠ some id)
    (hsucc : (getProjects gl cc tU tC obs m).2 = none) :
    (lookupPM (getProjects gl cc tU tC obs m).1 id = none ↔ cc < tC - c0.lastSeen) := by
  rcases hup : upsertPhase gl tU obs [] m with ⟨⟨seen, m'⟩, err⟩
  have habs := upsertPhase_absent gl tU obs [] m id habsent
  have hnd' := upsertPhase_nodup gl tU obs [] m hnd
  rw [hup] at habs hnd'
  unfold getProjects at hsucc ⊢
  rw [hup] at hsucc ⊢
  cases err with
  | some e => simp at hsucc
  | none =>
    have hlook : lookupPM m' id = some c0 := by rw [habs.1, htrack]
    constructor
    · intro hdel
      by_contra hlt
      have hkeep : ¬ c0.lastSeen < tC - cc := by omega
      rw [lookupPM_cleanupPhase_kept seen (tC - cc) m' id c0 hlook hkeep] at hdel
      simp at hdel
    · intro hlt
      exact lookupPM_cleanupPhase_deleted seen (tC - cc) m' id c0 hnd' hlook (by omega)

/-- C3 witness: a unit last seen at time zero, absent from a pass whose
cleanup runs one second after the cutoff has elapsed, is removed from
the mapping; the strict-inequality criterion is discharged concretely. -/
theorem C3_eviction_strict_witness :
    lookupPM
      (getProjects "com.docker.compose.project" 259200000000000
        259201000000000 259201000000000 []
        [("p___/a",
          { name := "/a", status := "up 2 days", link := "", lastSeen := 0,
            isDown := false, project := "p" })]).1 "p___/a" = none :=
  (C3_eviction_strict "com.docker.compose.project" 259200000000000
    259201000000000 259201000000000 [] _ "p___/a"
    { name := "/a", status := "up 2 days", link := "", lastSeen := 0,
      isDown := false, project := "p" }
    (by decide) (by rfl) (by simp) (by rfl)).mpr (by decide)

/-- C4: when an identity that is not in the mapping (for instance
because it was evicted in an earlier pass) reappears in a snapshot, the
record the pass stores for it is exactly the freshly built one: down is
false, lastSeen is the current pass time, and every field comes from the
observation alone. -/
theorem C4_fresh_after_eviction (gl : String) (cc tU tC : Int)
    (pre post : List RawContainer) (r : RawContainer) (m : PMap) (id : String)
    (_hevicted : lookupPM m id = none)
    (hk : obsKey gl r = some id)
    (hpost : ∀ r' ∈ post, obsKey gl r' ≠ some id)
    (hsucc : (getProjects gl cc tU tC (pre ++ r :: post) m).2 = none)
    (hcut : ¬ tU < tC - cc) :
    lookupPM (getProjects gl cc tU tC (pre ++ r :: post) m).1 id = obsFresh gl tU r ∧
    ∃ c, obsFresh gl tU r = some c ∧ c.isDown = false ∧ c.lastSeen = tU := by
  rcases hup : upsertPhase gl tU (pre ++ r :: post) [] m with ⟨⟨seen, m'⟩, err⟩
  unfold getProjects at hsucc ⊢
  rw [hup] at hsucc ⊢
  cases err with
  | some e => simp at hsucc
  | none =>
    have hlast := upsertPhase_last gl tU pre r post [] m id hk hpost (by rw [hup])
    rw [hup] at hlast
    rcases hlast with ⟨hlook, hseen⟩
    rcases hl : labelsLookup r.labels gl with _ | project
    · simp [obsKey, hl] at hk
    · rcases hn : r.names with _ | ⟨name, tl⟩
      · simp [obsKey, hl, hn] at hk
      · have hfresh : obsFresh gl tU r = some (freshTain tU r project name) := by
          simp [obsFresh, hl, hn]
        have hfields := freshTain_fields tU r project name
        constructor
        · rw [hfresh] at hlook
          have hcut2 : ¬ (freshTain tU r project name).lastSeen < tC - cc := by
            rw [hfields.2.2.2.1]; exact hcut
          rw [lookupPM_cleanupPhase_kept seen (tC - cc) m' id _ hlook hcut2,
            if_pos hseen, hfresh]
        · exact ⟨freshTain tU r project name, hfresh, hfields.2.2.2.2, hfields.2.2.2.1⟩

/-- C4 witness: an empty mapping and a snapshot containing the
reappearing identity; the stored record is the freshly built one with
down false and lastSeen equal to the pass time. -/
theorem C4_fresh_after_eviction_witness :
    lookupPM
      (getProjects "com.docker.compose.project" 100 50 50
        [{ id := "newid", names := ["/a"], status := "Up 2 days",
           labels := [("com.docker.compose.project", "p")] }] []).1 "p___/a" =
      obsFresh "com.docker.compose.project" 50
        { id := "newid", names := ["/a"], status := "Up 2 days",
          labels := [("com.docker.compose.project", "p")] } ∧
    ∃ c, obsFresh "com.docker.compose.project" 50
        { id := "newid", names := ["/a"], status := "Up 2 days",
          labels := [("com.docker.compose.project", "p")] } = some c ∧
      c.isDown = false ∧ c.lastSeen = 50 :=
  C4_fresh_after_eviction "com.docker.compose.project" 100 50 50 [] []
    { id := "newid", names := ["/a"], status := "Up 2 days",
      labels := [("com.docker.compose.project", "p")] } [] "p___/a"
    (by rfl) (by rfl) (by simp) (by rfl) (by decide)

/-- C6: an observed container without the configured project label is
skipped entirely by the reconciliation pass, whatever its other fields
are: the pass computes exactly what it would compute on the snapshot
with that container removed, so it causes no error and no mutation. -/
theorem C6_missing_label_ignored (gl : String) (cc tU tC : Int)
    (pre post : List RawContainer) (r : RawContainer) (m : PMap)
    (hl : labelsLookup r.labels gl = none) :
    getProjects gl cc tU tC (pre ++ r :: post) m = getProjects gl cc tU tC (pre ++ post) m := by
  unfold getProjects
  rw [upsertPhase_remove_skipped gl tU pre r post [] m hl]

/-- C6 witness: a container with no labels at all and an empty names
list, inserted between two well-formed observations, leaves the pass
result unchanged. -/
theorem C6_missing_label_ignored_witness :
    labelsLookup (RawContainer.mk "x" [] "Up" []).labels "com.docker.compose.project" = none ∧
    getProjects "com.docker.compose.project" 100 50 50
        ([{ id := "idA", names := ["/a"], status := "Up",
            labels := [("com.docker.compose.project", "p")] }] ++
          { id := "x", names := [], status := "Up", labels := [] } ::
          [{ id := "idB", names := ["/b"], status := "Up",
             labels := [("com.docker.compose.project", "p")] }]) [] =
      getProjects "com.docker.compose.project" 100 50 50
        ([{ id := "idA", names := ["/a"], status := "Up",
            labels := [("com.docker.compose.project", "p")] }] ++
          [{ id := "idB", names := ["/b"], status := "Up",
             labels := [("com.docker.compose.project", "p")] }]) [] :=
  ⟨by rfl,
    C6_missing_label_ignored "com.docker.compose.project" 100 50 50
      [{ id := "idA", names := ["/a"], status := "Up",
         labels := [("com.docker.compose.project", "p")] }]
      [{ id := "idB", names := ["/b"], status := "Up",
         labels := [("com.docker.compose.project", "p")] }]
      { id := "x", names := [], status := "Up", labels := [] } [] (by rfl)⟩

/-- C1 counterexample: a snapshot holding one well-formed observation
followed by one malformed observation (project label present, empty
names list).  GetProjects does return an error, but the mapping is not
left as it was: the well-formed observation's upsert is retained, so the
pass is not an atomic abort. -/
theorem C1_not_atomic_counterexample :
    (getProjects "com.docker.compose.project" 259200000000000 1000 1000
        [{ id := "idA", names := ["/a"], status := "Up 2 days",
           labels := [("com.docker.compose.project", "p")] },
         { id := "idB", names := [], status := "Up",
           labels := [("com.docker.compose.project", "p")] }] []).2 ≠ none ∧
    (getProjects "com.docker.compose.project" 259200000000000 1000 1000
        [{ id := "idA", names := ["/a"], status := "Up 2 days",
           labels := [("com.docker.compose.project", "p")] },
         { id := "idB", names := [], status := "Up",
           labels := [("com.docker.compose.project", "p")] }] []).1 ≠ [] := by
  constructor
  · decide
  · decide

/-- C1 amended: on a snapshot whose first malformed observation is
preceded only by observations that are skipped or upserted cleanly,
GetProjects returns the does-not-have-a-name error, keeps exactly the
upserts already applied for the preceding observations, and applies no
down-markings and no evictions, because the cleanup loop is skipped. -/
theorem C1_malformed_partial_upsert (gl : String) (cc tU tC : Int)
    (pre rest : List RawContainer) (mal : RawContainer) (m : PMap) (project : String)
    (hpre : (upsertPhase gl tU pre [] m).2 = none)
    (hl : labelsLookup mal.labels gl = some project)
    (hn : mal.names = []) :
    getProjects gl cc tU tC (pre ++ mal :: rest) m =
      ((upsertPhase gl tU pre [] m).1.2,
        some ("\"" ++ mal.id ++ "\" does not have a name")) := by
  unfold getProjects
  rw [upsertPhase_append_error gl tU pre mal rest [] m project hpre hl hn]

/-- C1 amended witness: the counterexample input, showing the returned
mapping is exactly the one-entry mapping produced by the well-formed
prefix together with the error. -/
theorem C1_malformed_partial_upsert_witness :
    getProjects "com.docker.compose.project" 259200000000000 1000 1000
        ([{ id := "idA", names := ["/a"], status := "Up 2 days",
            labels := [("com.docker.compose.project", "p")] }] ++
          { id := "idB", names := [], status := "Up",
            labels := [("com.docker.compose.project", "p")] } :: []) [] =
      ((upsertPhase "com.docker.compose.project" 1000
          [{ id := "idA", names := ["/a"], status := "Up 2 days",
             labels := [("com.docker.compose.project", "p")] }] [] []).1.2,
        some "\"idB\" does not have a name") :=
  C1_malformed_partial_upsert "com.docker.compose.project" 259200000000000 1000 1000
    [{ id := "idA", names := ["/a"], status := "Up 2 days",
       labels := [("com.docker.compose.project", "p")] }] []
    { id := "idB", names := [], status := "Up",
      labels := [("com.docker.compose.project", "p")] } [] "p"
    (by rfl) (by rfl) (by rfl)

/-- C5: across any number of consecutive reconciliation passes whose
snapshots only ever observe identities already tracked at the start, the
key set never leaves the initial key set and the size of the mapping
does not grow, whatever the raw container IDs of the observations are:
only the composite (project, name) identity enters obsKey. -/
theorem C5_identity_stability (gl : String) (cc : Int) (ps : List PassIn) (m0 : PMap)
    (hnd : (keysOf m0).Nodup)
    (hids : ∀ p ∈ ps, ∀ r ∈ p.obs, ∀ k, obsKey gl r = some k → k ∈ keysOf m0) :
    keysOf (runPasses gl cc ps m0) ⊆ keysOf m0 ∧
    (runPasses gl cc ps m0).length ≤ m0.length := by
  have main : ∀ (qs : List PassIn) (m : PMap),
      (keysOf m).Nodup → keysOf m ⊆ keysOf m0 →
      (∀ p ∈ qs, ∀ r ∈ p.obs, ∀ k, obsKey gl r = some k → k ∈ keysOf m0) →
      keysOf (runPasses gl cc qs m) ⊆ keysOf m0 ∧
      (keysOf (runPasses gl cc qs m)).Nodup := by
    intro qs
    induction qs with
    | nil => intro m h1 h2 _; exact ⟨h2, h1⟩
    | cons p qs' ih =>
      intro m h1 h2 h3
      rw [runPasses_cons]
      refine ih ((getProjects gl cc p.tU p.tC p.obs m).1) ?_ ?_ ?_
      · exact getProjects_nodup gl cc p.tU p.tC p.obs m h1
      · intro k hk
        rcases getProjects_keys_subset gl cc p.tU p.tC p.obs m k hk with h | ⟨r, hr, hkr⟩
        · exact h2 h
        · exact h3 p (List.mem_cons_self _ _) r hr k hkr
      · exact fun q hq => h3 q (List.mem_cons_of_mem _ hq)
  rcases main ps m0 hnd (fun _ h => h) hids with ⟨hsub, hnodup⟩
  refine ⟨hsub, ?_⟩
  have h1 : (keysOf (runPasses gl cc ps m0)).length ≤ (keysOf m0).length :=
    (hnodup.subperm hsub).length_le
  simpa [keysOf, List.length_map] using h1

/-- C5 witness: one tracked unit observed again in two later passes
under raw container IDs that differ from each other; the key set stays
inside the initial one and the mapping does not grow. -/
theorem C5_identity_stability_witness :
    keysOf (runPasses "com.docker.compose.project" 259200000000000
        [{ tU := 10, tC := 10,
           obs := [{ id := "engine-id-1", names := ["/a"], status := "Up",
                     labels := [("com.docker.compose.project", "p")] }] },
         { tU := 20, tC := 20,
           obs := [{ id := "engine-id-2", names := ["/a"], status := "Up",
                     labels := [("com.docker.compose.project", "p")] }] }]
        [("p___/a",
          { name := "/a", status := "up", link := "", lastSeen := 5,
            isDown := false, project := "p" })]) ⊆
      keysOf [("p___/a",
        { name := "/a", status := "up", link := "", lastSeen := 5,
          isDown := false, project := "p" })] ∧
    (runPasses "com.docker.compose.project" 259200000000000
        [{ tU := 10, tC := 10,
           obs := [{ id := "engine-id-1", names := ["/a"], status := "Up",
                     labels := [("com.docker.compose.project", "p")] }] },
         { tU := 20, tC := 20,
           obs := [{ id := "engine-id-2", names := ["/a"], status := "Up",
                     labels := [("com.docker.compose.project", "p")] }] }]
        [("p___/a",
          { name := "/a", status := "up", link := "", lastSeen := 5,
            isDown := false, project := "p" })]).length ≤
      ([("p___/a",
        { name := "/a", status := "up", link := "", lastSeen := 5,
          isDown := false, project := "p" })] : PMap).length :=
  C5_identity_stability "com.docker.compose.project" 259200000000000
    [{ tU := 10, tC := 10,
       obs := [{ id := "engine-id-1", names := ["/a"], status := "Up",
                 labels := [("com.docker.compose.project", "p")] }] },
     { tU := 20, tC := 20,
       obs := [{ id := "engine-id-2", names := ["/a"], status := "Up",
                 labels := [("com.docker.compose.project", "p")] }] }]
    [("p___/a",
      { name := "/a", status := "up", link := "", lastSeen := 5,
        isDown := false, project := "p" })]
    (by decide) (by decide)

theorem histAdd_length (h : HistStatus.hist) (n : Int) :
    (HistStatus.histAdd h n).length = h.length := by
  simp [HistStatus.histAdd]

theorem histAdd_foldl (vs : List Int) :
    ∀ h : HistStatus.hist, vs.foldl HistStatus.histAdd h = (h ++ vs).drop vs.length := by
  induction vs with
  | nil => intro h; simp
  | cons v vs ih =>
    intro h
    rw [List.foldl_cons, ih]
    show ((h ++ [v]).drop 1 ++ vs).drop vs.length = (h ++ v :: vs).drop (v :: vs).length
    rw [← List.drop_append_of_le_length (by simp : 1 ≤ (h ++ [v]).length),
      List.drop_drop, List.append_assoc, List.singleton_append, List.length_cons,
      Nat.add_comm vs.length 1]

/-- C8: each push on a history buffer appends the newest value and drops
the oldest: the length never changes, a run of pushes is exactly an
append followed by dropping the oldest values in first-in-first-out
order, and in particular a capacity-3 buffer that absorbed the pushes
1, 2, 3, 4 reads 2, 3, 4. -/
theorem C8_hist_buffer_fifo :
    (∀ (h : HistStatus.hist) (vs : List Int),
        (vs.foldl HistStatus.histAdd h).length = h.length ∧
        vs.foldl HistStatus.histAdd h = (h ++ vs).drop vs.length) ∧
    [1, 2, 3, 4].foldl HistStatus.histAdd (List.replicate 3 0) = [2, 3, 4] := by
  constructor
  · intro h vs
    refine ⟨?_, histAdd_foldl vs h⟩
    rw [histAdd_foldl vs h]
    simp
  · decide

/-- C10: applying WithHistWindow while the scan interval is still at its
zero value panics with a divide-by-zero, both when it is the only option
and when WithScanInternal comes after it; with WithScanInternal first,
construction succeeds and both history buffers get capacity window
divided by interval.  The buffer capacity therefore depends on the order
of the options. -/
theorem C10_histWindow_order (d s : Int) (hd : 0 ≤ d) (hs : 0 < s) :
    HistStatus.newController [HistStatus.WithHistWindow d] =
      Except.error HistStatus.OptFault.divByZero ∧
    HistStatus.newController [HistStatus.WithHistWindow d, HistStatus.WithScanInternal s] =
      Except.error HistStatus.OptFault.divByZero ∧
    ∃ c, HistStatus.newController [HistStatus.WithScanInternal s, HistStatus.WithHistWindow d] =
        Except.ok c ∧
      c.histCPU.length = (d.tdiv s).toNat ∧ c.histTemp.length = (d.tdiv s).toNat := by
  have hs0 : ¬ (s = 0) := fun h => by rw [h] at hs; exact lt_irrefl 0 hs
  have hnn : ¬ (d.tdiv s < 0) := not_lt.mpr (Int.tdiv_nonneg hd hs.le)
  refine ⟨rfl, rfl, ?_⟩
  refine ⟨{ scanInterval := s,
            histCPU := List.replicate (d.tdiv s).toNat 0,
            histTemp := List.replicate (d.tdiv s).toNat 0,
            pageTitle := "", showCredit := false }, ?_, by simp, by simp⟩
  simp [HistStatus.newController, List.foldlM, HistStatus.WithScanInternal,
    HistStatus.WithHistWindow, Except.instMonad, Except.bind, Except.pure, hs0, hnn]

/-- C10 witness: a sixty-unit window and a five-unit interval; the
option order decides between a divide-by-zero panic and buffers of
capacity twelve. -/
theorem C10_histWindow_order_witness :
    (0 : Int) ≤ 60 ∧ (0 : Int) < 5 ∧
    (HistStatus.newController [HistStatus.WithHistWindow 60] =
        Except.error HistStatus.OptFault.divByZero ∧
      HistStatus.newController [HistStatus.WithHistWindow 60, HistStatus.WithScanInternal 5] =
        Except.error HistStatus.OptFault.divByZero ∧
      ∃ c, HistStatus.newController
            [HistStatus.WithScanInternal 5, HistStatus.WithHistWindow 60] =
          Except.ok c ∧
        c.histCPU.length = ((60 : Int).tdiv 5).toNat ∧
        c.histTemp.length = ((60 : Int).tdiv 5).toNat) :=
  ⟨by decide, by decide, C10_histWindow_order 60 5 (by decide) (by decide)⟩

theorem unmarshal_marshal_container (c : Container) :
    unmarshalContainer (marshalContainer c) = some c := rfl

theorem upsert_fresh (m : PMap) (k : String) (v : Container) (h : k ∉ keysOf m) :
    upsert m k v = m ++ [(k, v)] := by
  unfold upsert
  rw [if_neg (fun hm => h ((memKey_iff m k).mp hm))]

theorem unmarshalFields_marshal (m : PMap) :
    ∀ acc : PMap, (keysOf m).Nodup → (∀ k ∈ keysOf m, k ∉ keysOf acc) →
      unmarshalFields (m.map (fun p => (p.1, marshalContainer p.2))) acc =
        some (acc ++ m) := by
  induction m with
  | nil => intro acc _ _; simp [unmarshalFields]
  | cons p rest ih =>
    intro acc hnd hdisj
    rcases p with ⟨k, v⟩
    rw [keysOf_cons] at hnd hdisj
    rw [List.map_cons]
    show unmarshalFields ((k, marshalContainer v) :: _) acc = _
    rw [show unmarshalFields ((k, marshalContainer v) ::
        rest.map (fun p => (p.1, marshalContainer p.2))) acc =
      unmarshalFields (rest.map (fun p => (p.1, marshalContainer p.2)))
        (upsert acc k v) from rfl]
    rw [upsert_fresh acc k v (hdisj k (List.mem_cons_self _ _))]
    rw [ih (acc ++ [(k, v)]) hnd.of_cons ?_]
    · rw [List.append_assoc, List.singleton_append]
    · intro k2 hk2
      rw [keysOf_append]
      rw [List.mem_append]
      push_neg
      constructor
      · exact hdisj k2 (List.mem_cons_of_mem _ hk2)
      · have : k ∉ keysOf rest := (List.nodup_cons.mp hnd).1
        intro hmem
        simp [keysOf] at hmem
        exact this (hmem ▸ hk2)

/-- C7: serialising any unit mapping with unique identities and reading
the result back through WithResume on a controller whose mapping is
still empty reproduces the mapping exactly: the same identities bound to
the same Name, Status, Link, LastSeen, IsDown and Project values. -/
theorem C7_resume_roundtrip (m : PMap) (c : Controller)
    (hnd : (keysOf m).Nodup) (hempty : c.lastProjects = []) :
    ∃ c', WithResume (some (marshalPMap m)) c = some c' ∧
      c'.lastProjects = m ∧
      ∀ k, lookupPM c'.lastProjects k = lookupPM m k := by
  have hun : unmarshalPMap (marshalPMap m) c.lastProjects = some m := by
    rw [hempty]
    show unmarshalFields (m.map (fun p => (p.1, marshalContainer p.2))) [] = some m
    rw [unmarshalFields_marshal m [] hnd (by intro k _; simp [keysOf])]
    rw [List.nil_append]
  refine ⟨{ c with lastProjects := m }, ?_, rfl, fun k => rfl⟩
  unfold WithResume
  simp [hun]

/-- C7 witness: a two-entry mapping round-trips through the modelled
serialisation and WithResume on a freshly constructed controller. -/
theorem C7_resume_roundtrip_witness :
    ∃ c', WithResume (some (marshalPMap
        [("p___/a",
          { name := "/a", status := "up", link := "a.example.com", lastSeen := 7,
            isDown := true, project := "p" }),
         ("q___/b",
          { name := "/b", status := "exited (0)", link := "", lastSeen := 9,
            isDown := false, project := "q" })]))
        { cleanCutoff := 259200000000000, pageTitle := "server status",
          groupLabel := "com.docker.compose.project", showCredit := false,
          lastProjects := [] } = some c' ∧
      c'.lastProjects =
        [("p___/a",
          { name := "/a", status := "up", link := "a.example.com", lastSeen := 7,
            isDown := true, project := "p" }),
         ("q___/b",
          { name := "/b", status := "exited (0)", link := "", lastSeen := 9,
            isDown := false, project := "q" })] ∧
      ∀ k, lookupPM c'.lastProjects k =
        lookupPM
          [("p___/a",
            { name := "/a", status := "up", link := "a.example.com", lastSeen := 7,
              isDown := true, project := "p" }),
           ("q___/b",
            { name := "/b", status := "exited (0)", link := "", lastSeen := 9,
              isDown := false, project := "q" })] k :=
  C7_resume_roundtrip
    [("p___/a",
      { name := "/a", status := "up", link := "a.example.com", lastSeen := 7,
        isDown := true, project := "p" }),
     ("q___/b",
      { name := "/b", status := "exited (0)", link := "", lastSeen := 9,
        isDown := false, project := "q" })]
    { cleanCutoff := 259200000000000, pageTitle := "server status",
      groupLabel := "com.docker.compose.project", showCredit := false,
      lastProjects := [] }
    (by decide) (by rfl)

theorem getProjects_zero_cutoff (gl : String) (tU tC : Int)
    (obs : List RawContainer) (m : PMap)
    (htu : tU < tC) (hm : ∀ p ∈ m, p.2.lastSeen < tC)
    (hsucc : (getProjects gl 0 tU tC obs m).2 = none) :
    (getProjects gl 0 tU tC obs m).1 = [] := by
  rcases hup : upsertPhase gl tU obs [] m with ⟨⟨seen, m'⟩, err⟩
  unfold getProjects at hsucc ⊢
  rw [hup] at hsucc ⊢
  cases err with
  | some e => simp at hsucc
  | none =>
    refine cleanupPhase_all_deleted seen (tC - 0) m' ?_
    intro p hp
    rcases upsertPhase_entries gl tU obs [] m p (by rw [hup]; exact hp) with h | h
    · rw [h]; omega
    · have := hm p h; omega

/-- C9: the command-line default clean cutoff is zero seconds, and
main's WithCleanCutoff option overrides the library's three-day default
with it; with a zero cutoff, any reconciliation pass that completes with
its cleanup reading of the clock strictly later than its upsert reading
deletes every tracked unit, the ones upserted in the same pass included,
leaving the mapping empty, so no down flag can survive a pass. -/
theorem C9_zero_cutoff_empties (file : Option Json) (title : String) (c : Controller)
    (hc : newController [WithCleanCutoff (0 * nsPerSecond), WithResume file,
        WithTitle title, WithCredit] = some c) :
    c.cleanCutoff = 0 ∧ c.groupLabel = "com.docker.compose.project" ∧
    ∀ (obs : List RawContainer) (tU tC : Int) (m : PMap),
      tU < tC →
      (∀ p ∈ m, p.2.lastSeen < tC) →
      (getProjects c.groupLabel c.cleanCutoff tU tC obs m).2 = none →
      (getProjects c.groupLabel c.cleanCutoff tU tC obs m).1 = [] := by
  have hfields : c.cleanCutoff = 0 ∧ c.groupLabel = "com.docker.compose.project" := by
    rcases file with _ | j
    · simp [newController, List.foldlM, WithCleanCutoff, WithResume, WithTitle,
        WithCredit] at hc
      rw [← hc]
      exact ⟨rfl, rfl⟩
    · rcases hj : unmarshalPMap j [] with _ | m0
      · simp [newController, List.foldlM, WithCleanCutoff, WithResume, WithTitle,
          WithCredit, hj] at hc
      · simp [newController, List.foldlM, WithCleanCutoff, WithResume, WithTitle,
          WithCredit, hj] at hc
        rw [← hc]
        exact ⟨rfl, rfl⟩
  refine ⟨hfields.1, hfields.2, ?_⟩
  intro obs tU tC m htu hm hsucc
  rw [hfields.1] at hsucc ⊢
  exact getProjects_zero_cutoff c.groupLabel tU tC obs m htu hm hsucc

/-- C9 witness: main's option list with an empty save file and an empty
title produces a controller whose clean cutoff is zero. -/
theorem C9_zero_cutoff_empties_witness :
    newController [WithCleanCutoff (0 * nsPerSecond), WithResume none,
        WithTitle "", WithCredit] = some
      { cleanCutoff := 0, pageTitle := "",
        groupLabel := "com.docker.compose.project", showCredit := true,
        lastProjects := [] } ∧
    ({ cleanCutoff := 0, pageTitle := "",
       groupLabel := "com.docker.compose.project", showCredit := true,
       lastProjects := [] } : Controller).cleanCutoff = 0 ∧
    ({ cleanCutoff := 0, pageTitle := "",
       groupLabel := "com.docker.compose.project", showCredit := true,
       lastProjects := [] } : Controller).groupLabel = "com.docker.compose.project" ∧
    ∀ (obs : List RawContainer) (tU tC : Int) (m : PMap),
      tU < tC →
      (∀ p ∈ m, p.2.lastSeen < tC) →
      (getProjects "com.docker.compose.project" 0 tU tC obs m).2 = none →
      (getProjects "com.docker.compose.project" 0 tU tC obs m).1 = [] :=
  ⟨rfl,
    C9_zero_cutoff_empties none ""
      { cleanCutoff := 0, pageTitle := "",
        groupLabel := "com.docker.compose.project", showCredit := true,
        lastProjects := [] } rfl⟩
